import Mathlib

/-!
Verification of the cryptographic core of the `pybitcoin` library against its
natural-language specification.  Python source files are shallowly embedded:
byte strings become `List Nat` (each entry a byte value), Python's arbitrary
precision integers become `Nat`/`Int` with explicit modular reduction, and
fallible code (Python exceptions: `assert`, `IndexError`, `OverflowError`,
`ValueError`, `AttributeError`) returns `Option`.  `while` loops are rendered
with an explicit fuel argument that strictly dominates the number of
iterations the Python loop performs on the given input; exhausting the fuel
yields `none` and never occurs in the verified evaluations.
-/

set_option maxRecDepth 100000
set_option maxHeartbeats 16000000

/-! ## Byte/integer codec (src/bitcoin/utils/ints.py) -/

/-- Big-endian fixed-width encoding: `i.to_bytes(n, "big")` for `i < 256^n`.
Defined so the most significant byte comes first. -/
def toBytesBE (i : Nat) : Nat → List Nat
  | 0 => []
  | n + 1 => toBytesBE (i / 256) n ++ [i % 256]

/-- Little-endian fixed-width encoding: `i.to_bytes(n, "little")`. -/
def toBytesLE (i : Nat) : Nat → List Nat
  | 0 => []
  | n + 1 => i % 256 :: toBytesLE (i / 256) n

/-- Big-endian interpretation of a byte string: `int.from_bytes(b, "big")`. -/
def fromBytesBE (b : List Nat) : Nat :=
  b.foldl (fun acc x => acc * 256 + x) 0

/-- Little-endian interpretation of a byte string: `int.from_bytes(b, "little")`. -/
def fromBytesLE (b : List Nat) : Nat :=
  b.foldr (fun x acc => x + acc * 256) 0

/-- The `"little" | "big"` endianness strings taken by the codec functions. -/
inductive Endian where
  | little : Endian
  | big : Endian
deriving DecidableEq

/-- `decode_int(s, nbytes, encoding)` from src/bitcoin/utils/ints.py: reads up
to `nbytes` bytes from the stream (`BytesIO.read` returns fewer bytes when the
stream is short, without raising) and interprets them with `int.from_bytes`.
The stream cursor is the list itself. -/
def decode_int (s : List Nat) (nbytes : Nat) (encoding : Endian) : Nat :=
  match encoding with
  | .little => fromBytesLE (s.take nbytes)
  | .big => fromBytesBE (s.take nbytes)

/-- `encode_int(i, num_bytes, encoding)`: `i.to_bytes(num_bytes, encoding)`,
raising `OverflowError` (here `none`) when `i` does not fit. -/
def encode_int (i : Nat) (numBytes : Nat) (encoding : Endian) : Option (List Nat) :=
  if i < 256 ^ numBytes then
    some (match encoding with
          | .little => toBytesLE i numBytes
          | .big => toBytesBE i numBytes)
  else none

/-- `encode_varint(i)` from src/bitcoin/utils/ints.py (Bitcoin CompactSize). -/
def encode_varint (i : Nat) : Option (List Nat) :=
  if i < 0xfd then some [i]
  else if i < 0x10000 then some (0xfd :: toBytesLE i 2)
  else if i < 0x100000000 then some (0xfe :: toBytesLE i 4)
  else if i < 0x10000000000000000 then some (0xff :: toBytesLE i 8)
  else none

/-! ## Modular arithmetic (src/bitcoin/utils/ints.py) -/

/-- Square-and-multiply core of Python's three-argument `pow`; `fuel` bounds
the number of halvings of the exponent (`fuel ≥ e` always suffices). -/
def powModAux (m : Nat) : Nat → Nat → Nat → Nat → Nat
  | 0, _, _, acc => acc
  | fuel + 1, b, e, acc =>
    if e = 0 then acc
    else powModAux m fuel (b * b % m) (e / 2) (if e % 2 = 1 then acc * b % m else acc)

/-- Python `pow(b, e, m)` for `m > 0` and `e ≥ 0` on naturals. -/
def powMod (b e m : Nat) : Nat :=
  powModAux m e (b % m) e (1 % m)

/-- Python `pow(b, e, m)` where the base may be negative: Python first reduces
the base into `[0, m)`. -/
def powModInt (b : Int) (e : Nat) (m : Int) : Int :=
  Int.ofNat (powMod (b % m).toNat e m.toNat)

/-- `modulardiv(a, b, p) = (a * pow(b, p-2, p)) % p` from
src/bitcoin/utils/ints.py, on naturals (as used with `N` in ecdsa.py). -/
def modulardiv (a b p : Nat) : Nat :=
  a * powMod b (p - 2) p % p

/-- `modulardiv` on Python ints that may be negative (as used on curve
coordinates in ecc.py); Python's `%` with a positive modulus returns a value
in `[0, p)`, matching `Int.emod`. -/
def modulardivInt (a b p : Int) : Int :=
  a * powModInt b (p - 2).toNat p % p

/-- `modularsqrt(x, p) = pow(x, (p+1)//4, p)` from src/bitcoin/utils/ints.py. -/
def modularsqrt (x p : Nat) : Nat :=
  powMod x ((p + 1) / 4) p

/-! ## SHA-256 (FIPS 180-4), the `hashlib.sha256` primitive used by
src/bitcoin/utils/hashfns.py.  Messages and digests are byte lists; words are
naturals reduced modulo `2^32`. -/

/-- The 64 SHA-256 round constants. -/
def sha256K : List Nat :=
  [1116352408, 1899447441, 3049323471, 3921009573, 961987163, 1508970993,
   2453635748, 2870763221, 3624381080, 310598401, 607225278, 1426881987,
   1925078388, 2162078206, 2614888103, 3248222580, 3835390401, 4022224774,
   264347078, 604807628, 770255983, 1249150122, 1555081692, 1996064986,
   2554220882, 2821834349, 2952996808, 3210313671, 3336571891, 3584528711,
   113926993, 338241895, 666307205, 773529912, 1294757372, 1396182291,
   1695183700, 1986661051, 2177026350, 2456956037, 2730485921, 2820302411,
   3259730800, 3345764771, 3516065817, 3600352804, 4094571909, 275423344,
   430227734, 506948616, 659060556, 883997877, 958139571, 1322822218,
   1537002063, 1747873779, 1955562222, 2024104815, 2227730452, 2361852424,
   2428436474, 2756734187, 3204031479, 3329325298]

/-- 32-bit right rotation. -/
def rotr32 (x n : Nat) : Nat :=
  ((x >>> n) ||| (x <<< (32 - n))) &&& 0xffffffff

/-- The eight working variables of the SHA-256 compression function. -/
structure Sha256State where
  a : Nat
  b : Nat
  c : Nat
  d : Nat
  e : Nat
  f : Nat
  g : Nat
  h : Nat
deriving DecidableEq

/-- Initial SHA-256 hash value. -/
def sha256H0 : Sha256State :=
  ⟨1779033703, 3144134277, 1013904242, 2773480762,
   1359893119, 2600822924, 528734635, 1541459225⟩

/-- Group a byte list into big-endian 32-bit words (trailing fragment of fewer
than 4 bytes is dropped; inputs are always multiples of 4). -/
def bytesToWords : List Nat → List Nat
  | a :: b :: c :: d :: t => (((a * 256 + b) * 256 + c) * 256 + d) :: bytesToWords t
  | _ => []

/-- Message-schedule extension: prepends `count` new words to the reversed
schedule `acc` (head = most recent word), per FIPS 180-4 §6.2.2 step 1. -/
def sha256Extend : Nat → List Nat → List Nat
  | 0, acc => acc
  | count + 1, acc =>
    let w2 := acc.getD 1 0
    let w7 := acc.getD 6 0
    let w15 := acc.getD 14 0
    let w16 := acc.getD 15 0
    let s0 := (rotr32 w15 7) ^^^ (rotr32 w15 18) ^^^ (w15 >>> 3)
    let s1 := (rotr32 w2 17) ^^^ (rotr32 w2 19) ^^^ (w2 >>> 10)
    sha256Extend count (((w16 + s0 + w7 + s1) &&& 0xffffffff) :: acc)

/-- One round of the SHA-256 compression function. -/
def sha256Round (st : Sha256State) (kw : Nat × Nat) : Sha256State :=
  let S1 := (rotr32 st.e 6) ^^^ (rotr32 st.e 11) ^^^ (rotr32 st.e 25)
  let ch := (st.e &&& st.f) ^^^ ((st.e ^^^ 0xffffffff) &&& st.g)
  let t1 := (st.h + S1 + ch + kw.1 + kw.2) &&& 0xffffffff
  let S0 := (rotr32 st.a 2) ^^^ (rotr32 st.a 13) ^^^ (rotr32 st.a 22)
  let mj := (st.a &&& st.b) ^^^ (st.a &&& st.c) ^^^ (st.b &&& st.c)
  let t2 := (S0 + mj) &&& 0xffffffff
  ⟨(t1 + t2) &&& 0xffffffff, st.a, st.b, st.c,
   (st.d + t1) &&& 0xffffffff, st.e, st.f, st.g⟩

/-- Compress one 64-byte chunk into the running hash state. -/
def sha256Compress (st : Sha256State) (chunk : List Nat) : Sha256State :=
  let w16 := bytesToWords chunk
  let w := (sha256Extend 48 w16.reverse).reverse
  let r := (w.zip sha256K).foldl sha256Round st
  ⟨(st.a + r.a) &&& 0xffffffff, (st.b + r.b) &&& 0xffffffff,
   (st.c + r.c) &&& 0xffffffff, (st.d + r.d) &&& 0xffffffff,
   (st.e + r.e) &&& 0xffffffff, (st.f + r.f) &&& 0xffffffff,
   (st.g + r.g) &&& 0xffffffff, (st.h + r.h) &&& 0xffffffff⟩

/-- Fold the compression function over consecutive 64-byte chunks; `fuel`
bounds the number of chunks (`fuel ≥ length` always suffices). -/
def sha256Chunks : Nat → List Nat → Sha256State → Sha256State
  | 0, _, st => st
  | _, [], st => st
  | fuel + 1, bytes, st => sha256Chunks fuel (bytes.drop 64) (sha256Compress st (bytes.take 64))

/-- FIPS 180-4 SHA-256 of a byte string (the bytes-input path of `sha256` in
src/bitcoin/utils/hashfns.py, whose string paths merely convert to bytes). -/
def sha256 (msg : List Nat) : List Nat :=
  let len := msg.length
  let padZeros := (119 - len % 64) % 64
  let padded := msg ++ 0x80 :: List.replicate padZeros 0 ++ toBytesBE (8 * len) 8
  let st := sha256Chunks (padded.length) padded sha256H0
  toBytesBE st.a 4 ++ toBytesBE st.b 4 ++ toBytesBE st.c 4 ++ toBytesBE st.d 4 ++
  toBytesBE st.e 4 ++ toBytesBE st.f 4 ++ toBytesBE st.g 4 ++ toBytesBE st.h 4

/-- `hash256(s) = sha256(sha256(s))` from src/bitcoin/utils/hashfns.py
(bytes-input path). -/
def hash256 (msg : List Nat) : List Nat :=
  sha256 (sha256 msg)

/-- `hmac.new(key, msg, hashlib.sha256).digest()`: RFC 2104 HMAC with the
SHA-256 block size of 64 bytes, as implemented by Python's `hmac` module. -/
def hmacSha256 (key msg : List Nat) : List Nat :=
  let k0 := if 64 < key.length then sha256 key else key
  let k0 := k0 ++ List.replicate (64 - k0.length) 0
  sha256 ((k0.map (· ^^^ 0x5c)) ++ sha256 ((k0.map (· ^^^ 0x36)) ++ msg))

/-! ## Elliptic curve arithmetic (src/bitcoin/ecc.py) -/

/-- `Curve(p, a, b)`: the curve `y² = x³ + ax + b (mod p)`. -/
structure Curve where
  p : Int
  a : Int
  b : Int
deriving DecidableEq

/-- `Point(curve, x, y)`, a `@dataclass`: either an affine point or a point at
infinity, the latter marked by `x = None` (`none`).  The source constructs two
distinct infinity representations: `Point(None, None, None)` (the module
constant `INF` and the additive-inverse branch of `__add__`) and
`Point(self.curve, None, None)` (the accumulator of `__rmul__`).  Dataclass
equality compares all three fields.  No curve-equation check is performed on
construction. -/
structure Point where
  curve : Option Curve
  x : Option Int
  y : Option Int
deriving DecidableEq

/-- `Point.__add__` from src/bitcoin/ecc.py.  Python evaluates
`prime = self.curve.p` before any infinity check, so a left operand whose
`curve` is `None` raises `AttributeError` (modelled by `none`).  The `y`
fields are matched after the `x` checks; an affine operand with `y = None`
cannot arise from the module's own constructions and is also mapped to
`none`. -/
def Point.add (self other : Point) : Option Point :=
  match self.curve with
  | none => none
  | some c =>
    match self.x with
    | none => some other
    | some x1 =>
      match other.x with
      | none => some self
      | some x2 =>
        match self.y, other.y with
        | some y1, some y2 =>
          if x1 = x2 ∧ y1 ≠ y2 then
            some ⟨none, none, none⟩
          else
            let m := if x1 = x2
              then modulardivInt (3 * x1 * x1 + c.a) (2 * y1) c.p
              else modulardivInt (y1 - y2) (x1 - x2) c.p
            let rx := (m * m - x1 - x2) % c.p
            let ry := (-(m * (rx - x1) + y1)) % c.p
            some ⟨some c, some rx, some ry⟩
        | _, _ => none

/-- The loop body of `Point.__rmul__` (double-and-add, LSB first); `fuel`
bounds the number of halvings of `n` (`fuel ≥ n` always suffices; the Python
loop exits exactly when `n` reaches `0`). -/
def Point.rmulAux : Nat → Nat → Point → Point → Option Point
  | 0, n, _, res => if n = 0 then some res else none
  | fuel + 1, n, curr, res =>
    if n = 0 then some res
    else do
      let res' ← if n % 2 = 1 then Point.add res curr else some res
      let curr' ← Point.add curr curr
      Point.rmulAux fuel (n / 2) curr' res'

/-- `n * P` via `Point.__rmul__`: the accumulator starts as
`Point(self.curve, None, None)`. -/
def Point.rmul (n : Nat) (self : Point) : Option Point :=
  Point.rmulAux n n self ⟨self.curve, none, none⟩

/-- The module constant `INF = Point(None, None, None)` from ecc.py. -/
def INF : Point := ⟨none, none, none⟩

/-! ## secp256k1 constants (src/bitcoin/secp256k1.py) -/

namespace secp256k1

def P : Nat := 0xFFFFFFFFFFFFFFFFFFFFFFFFFFFFFFFFFFFFFFFFFFFFFFFFFFFFFFFEFFFFFC2F
def A : Nat := 0
def B : Nat := 7
def Gx : Nat := 0x79BE667EF9DCBBAC55A06295CE870B07029BFCDB2DCE28D959F2815B16F81798
def Gy : Nat := 0x483ada7726a3c4655da4fbfc0e1108a8fd17b448a68554199c47d08ffb10d4b8
def N : Nat := 0xFFFFFFFFFFFFFFFFFFFFFFFFFFFFFFFEBAAEDCE6AF48A03BBFD25E8CD0364141

/-- `E = Curve(p=P, a=A, b=B)`. -/
def E : Curve := ⟨(P : Int), (A : Int), (B : Int)⟩

/-- `G = Point(curve=E, x=Gx, y=Gy)`. -/
def G : Point := ⟨some E, some (Gx : Int), some (Gy : Int)⟩

end secp256k1

/-! ## ECDSA (src/bitcoin/ecdsa.py) -/

/-- The initial `k` of `rfc6979`: the source writes `k = b"0x00" * 32`, which
is the four ASCII characters `0`, `x`, `0`, `0` repeated 32 times — a 128-byte
string — not 32 zero bytes. -/
def rfc6979K0 : List Nat := (List.replicate 32 [0x30, 0x78, 0x30, 0x30]).flatten

/-- The initial `v` of `rfc6979`: `v = b"0x01" * 32`, the ASCII characters
`0`, `x`, `0`, `1` repeated 32 times (128 bytes). -/
def rfc6979V0 : List Nat := (List.replicate 32 [0x30, 0x78, 0x30, 0x31]).flatten

/-- The `while True` candidate loop shared by `rfc6979` and its spec model;
`fuel` bounds the number of candidates tried (one candidate virtually always
suffices, since a uniform 256-bit value is below `N` with overwhelming
probability). -/
def rfc6979Loop : Nat → List Nat → List Nat → Option Nat
  | 0, _, _ => none
  | fuel + 1, k, v =>
    let v1 := hmacSha256 k v
    let cand := fromBytesBE v1
    if 1 ≤ cand ∧ cand < secp256k1.N then some cand
    else
      let k1 := hmacSha256 k (v1 ++ [0x00])
      let v2 := hmacSha256 k1 v1
      rfc6979Loop fuel k1 v2

/-- `rfc6979(sk, z)` from src/bitcoin/ecdsa.py, embedded as written: the
ASCII initial strings, the strict `z > N` reduction, the two keyed rounds
with separator bytes `0x00` and `0x01`, then the candidate loop.
`to_bytes(32, "big")` raises `OverflowError` for values `≥ 2^256` (none). -/
def rfc6979 (sk z : Nat) : Option Nat :=
  let k := rfc6979K0
  let v := rfc6979V0
  let z := if z > secp256k1.N then z - secp256k1.N else z
  if z < 2 ^ 256 ∧ sk < 2 ^ 256 then
    let zb := toBytesBE z 32
    let skb := toBytesBE sk 32
    let k := hmacSha256 k (v ++ [0x00] ++ skb ++ zb)
    let v := hmacSha256 k v
    let k := hmacSha256 k (v ++ [0x01] ++ skb ++ zb)
    let v := hmacSha256 k v
    rfc6979Loop 100 k v
  else none

/-- The deterministic-nonce steps exactly as the spec states them (§4.G):
`V := 0x01·32`, `K := 0x00·32`, reduce `z` when `z ≥ n`, the same two HMAC
rounds, the same candidate loop.  Used only to compare against `rfc6979`. -/
def rfc6979Spec (sk z : Nat) : Option Nat :=
  let k := List.replicate 32 0x00
  let v := List.replicate 32 0x01
  let z := if z ≥ secp256k1.N then z - secp256k1.N else z
  if z < 2 ^ 256 ∧ sk < 2 ^ 256 then
    let zb := toBytesBE z 32
    let skb := toBytesBE sk 32
    let k := hmacSha256 k (v ++ [0x00] ++ skb ++ zb)
    let v := hmacSha256 k v
    let k := hmacSha256 k (v ++ [0x01] ++ skb ++ zb)
    let v := hmacSha256 k v
    rfc6979Loop 100 k v
  else none

/-- A signature `(r, s)`. -/
structure Signature where
  r : Nat
  s : Nat
deriving DecidableEq

/-- The value Python computes for the expression `N / 2` in
`Signature.from_private`: `/` on ints is float division, and the correctly
rounded IEEE-754 double of `N / 2` is exactly `2^255` (the top 53 bits of `N`
are all ones, so the quotient rounds up to the next power of two).  The
comparison `s > N/2` is therefore `s > 2^255`, not `s > (n-1)/2`. -/
def nHalfFloat : Nat := 2 ^ 255

/-- `Signature.from_private(sk, z, randk)` with the nonce `k` it drew made
explicit (`k = randsk()` when `randk` else `k = rfc6979(sk, z)`); everything
after the nonce draw is embedded as written.  If `k*G` is the point at
infinity, `r` is `None` and `z + r*sk` raises `TypeError` (none).  Curve
coordinates produced by `Point.add` are reduced into `[0, p)`, so `Int.toNat`
is exact. -/
def Signature.from_private_k (sk z k : Nat) : Option Signature := do
  let R ← Point.rmul k secp256k1.G
  match R.x with
  | none => none
  | some rx =>
    let r := rx.toNat
    let s := modulardiv (z + r * sk) k secp256k1.N
    let s := if s > nHalfFloat then secp256k1.N - s else s
    some ⟨r, s⟩

/-- `validate_signature(p, message, sig)` from src/bitcoin/ecdsa.py.  The two
`assert`s admit `r = N` and `s = N` (they test `≤ N`); an assertion failure is
`none`.  The final line returns `R.x == sig.r`, an exact integer comparison
(Python's `None == int` is `False` for the at-infinity `R`). -/
def validate_signature (p : Point) (message : List Nat) (sig : Signature) : Option Bool :=
  if 1 ≤ sig.r ∧ sig.r ≤ secp256k1.N then
    if 1 ≤ sig.s ∧ sig.s ≤ secp256k1.N then
      let z := fromBytesBE (hash256 message)
      let u := modulardiv z sig.s secp256k1.N
      let v := modulardiv sig.r sig.s secp256k1.N
      do
        let uG ← Point.rmul u secp256k1.G
        let vP ← Point.rmul v p
        let R ← Point.add uG vP
        some (decide (R.x = some (sig.r : Int)))
    else none
  else none

/-- The chain `R := u·G + v·P` as the spec's Verify step computes it (§4.G);
`none` when the underlying curve operations raise. -/
def specMulAdd (p : Point) (u v : Nat) : Option Point := do
  let uG ← Point.rmul u secp256k1.G
  let vP ← Point.rmul v p
  Point.add uG vP

/-- The claim's acceptance predicate for Verify, written from the spec:
`1 ≤ r < n`, `1 ≤ s < n`, `w := s⁻¹ mod n` (Fermat inverse), `u := z·w mod n`,
`v := r·w mod n`, `R := u·G + v·P`, accept iff `R ≠ ∞` and `R.x mod n = r`. -/
def specVerifyAccepts (p : Point) (message : List Nat) (sig : Signature) : Bool :=
  if 1 ≤ sig.r ∧ sig.r < secp256k1.N ∧ 1 ≤ sig.s ∧ sig.s < secp256k1.N then
    let z := fromBytesBE (hash256 message)
    let w := powMod sig.s (secp256k1.N - 2) secp256k1.N
    match specMulAdd p (z * w % secp256k1.N) (sig.r * w % secp256k1.N) with
    | some R =>
      match R.x with
      | some rx => decide (rx.toNat % secp256k1.N = sig.r)
      | none => false
    | none => false
  else false

/-- `Signature.encode` (DER) from src/bitcoin/ecdsa.py.  `to_bytes(32)`
raises for values `≥ 2^256`; `rbin[0]` raises `IndexError` when the stripped
string is empty (i.e. when the value is 0). -/
def Signature.encode (self : Signature) : Option (List Nat) :=
  if self.r < 2 ^ 256 ∧ self.s < 2 ^ 256 then
    let rbin := (toBytesBE self.r 32).dropWhile (· == 0)
    let sbin := (toBytesBE self.s 32).dropWhile (· == 0)
    match rbin.head?, sbin.head? with
    | some rh, some sh =>
      let rbin := if 0x80 ≤ rh then 0x00 :: rbin else rbin
      let sbin := if 0x80 ≤ sh then 0x00 :: sbin else sbin
      let res := [0x02, rbin.length] ++ rbin ++ [0x02, sbin.length] ++ sbin
      some ([0x30, res.length] ++ res)
    | _, _ => none
  else none

/-- `Signature.decode(sig_bytes)` from src/bitcoin/ecdsa.py: sequential
stream reads with `assert`s; a read past the end (`[0]` on an empty read) is
an `IndexError`.  The second assert compares against `len(sig_bytes) - 3`,
which in Python may be negative, hence the comparison over `Int`.  Note the
`- 3` and final `7 + rlength + slength` both count one trailing sighash byte
that `encode` does not produce. -/
def Signature.decode (sigBytes : List Nat) : Option Signature :=
  match sigBytes with
  | [] => none
  | b0 :: t1 =>
    if b0 = 0x30 then
      match t1 with
      | [] => none
      | length :: t2 =>
        if (length : Int) = (sigBytes.length : Int) - 3 then
          match t2 with
          | [] => none
          | m1 :: t3 =>
            if m1 = 0x02 then
              match t3 with
              | [] => none
              | rlength :: t4 =>
                let r := fromBytesBE (t4.take rlength)
                match t4.drop rlength with
                | [] => none
                | m2 :: t5 =>
                  if m2 = 0x02 then
                    match t5 with
                    | [] => none
                    | slength :: t6 =>
                      let s := fromBytesBE (t6.take slength)
                      if sigBytes.length = 7 + rlength + slength then some ⟨r, s⟩
                      else none
                  else none
            else none
        else none
    else none

/-! ## Keys (src/bitcoin/keys.py) -/

/-- `PublicKey.decode(b)` (SEC) from src/bitcoin/keys.py.  Neither branch
checks the curve equation: the uncompressed branch returns the raw
coordinates; the compressed branch reconstructs `y` from `x` by
`modularsqrt` without verifying the square.  An unknown marker byte raises
`ValueError`. -/
def PublicKey.decode (b : List Nat) : Option Point :=
  match b.head? with
  | none => none
  | some b0 =>
    if b0 = 4 then
      let x := fromBytesBE ((b.drop 1).take 32)
      let y := fromBytesBE ((b.drop 33).take 32)
      some ⟨some secp256k1.E, some (x : Int), some (y : Int)⟩
    else if b0 = 2 ∨ b0 = 3 then
      let even := b0 = 2
      let x := fromBytesBE (b.drop 1)
      let y2 := (powMod x 3 secp256k1.P + 7) % secp256k1.P
      let y := modularsqrt y2 secp256k1.P
      let yEven := y % 2 = 0
      let y := if even ≠ yEven then secp256k1.P - y else y
      some ⟨some secp256k1.E, some (x : Int), some (y : Int)⟩
    else none

/-- The curve-membership equation of §3/§4.E, stated from the spec; the
source never evaluates it anywhere. -/
def onCurveEq (c : Curve) (x y : Int) : Prop :=
  y * y % c.p = (x * x * x + c.a * x + c.b) % c.p

instance (c : Curve) (x y : Int) : Decidable (onCurveEq c x y) := by
  unfold onCurveEq; infer_instance

/-! ## Script (src/bitcoin/script/script.py) -/

/-- A Script command: an opcode (`int`) or a data push (`bytes`). -/
inductive Command where
  | op (code : Nat)
  | push (bytes : List Nat)
deriving DecidableEq

/-- The command-serialization loop of `Script.encode`.  The branch structure
is exactly the source's: `cmd_len < 75`, then `76 <= cmd_len <= 255`, then
`256 <= cmd_len <= 520`, else `raise ValueError` — a 75-byte push falls
through every branch. -/
def Script.encodeCmds : List Command → Option (List Nat)
  | [] => some []
  | .op code :: rest => do
    let e ← encode_int code 1 .little
    let r ← Script.encodeCmds rest
    some (e ++ r)
  | .push b :: rest => do
    let n := b.length
    let hd ←
      if n < 75 then encode_int n 1 .little
      else if 76 ≤ n ∧ n ≤ 255 then do
        let a ← encode_int 76 1 .little
        let c ← encode_int n 1 .little
        some (a ++ c)
      else if 256 ≤ n ∧ n ≤ 520 then do
        let a ← encode_int 77 1 .little
        let c ← encode_int n 2 .little
        some (a ++ c)
      else none
    let r ← Script.encodeCmds rest
    some (hd ++ b ++ r)

/-- `Script.encode`: serialize the commands, then prepend the varint of the
total byte length. -/
def Script.encode (commands : List Command) : Option (List Nat) := do
  let ret ← Script.encodeCmds commands
  let vi ← encode_varint ret.length
  some (vi ++ ret)

/-! ## Merkle tree (src/bitcoin/merkle.py) -/

/-- An entry of a Merkle level as the dynamically-typed source holds it:
either a Python `bytes` value, or a Python `str` holding the hexadecimal
rendering of the bytes `b` (levels produced by `get_merkle_parent` with its
default `as_hex=True` are hex strings). -/
inductive HashEntry where
  | bytes (b : List Nat)
  | hex (b : List Nat)
deriving DecidableEq

/-- `get_merkle_parent(hashes)` with the default `as_hex=True` (the only way
`MerkleTree.construct` calls it).  `range(0, len-1, 2)` drops the last
element of an odd-length list.  The loop tests only `h1`'s type and converts
both: mixed-type pairs raise `TypeError` (none), but levels are homogeneous
in every reachable state. -/
def get_merkle_parent : List HashEntry → Option (List HashEntry)
  | [] => some []
  | [_] => some []
  | h1 :: h2 :: rest => do
    let pair ← match h1, h2 with
      | .hex a, .hex b => some (a, b)
      | .bytes a, .bytes b => some (a, b)
      | .hex _, .bytes _ => none
      | .bytes _, .hex _ => none
    let rest' ← get_merkle_parent rest
    some (HashEntry.hex (hash256 (pair.1 ++ pair.2)) :: rest')

/-- The Merkle tree object: the level list (top first, as reversed by
`construct`) and `self.root = tree[0][::-1]` — a reversal of the top LEVEL
(a Python list), not of a 32-byte hash. -/
structure MerkleTree where
  tree : List (List HashEntry)
  root : List HashEntry
deriving DecidableEq

/-- The `while True` level-building loop of `MerkleTree.construct`; `levels`
is `merkle_tree` in construction order (bottom first), `curr` its last
element.  `fuel` bounds the iterations (the level halves each round; the
empty-input case never terminates in Python and exhausts the fuel here). -/
def MerkleTree.constructAux : Nat → List (List HashEntry) → List HashEntry →
    Option (List (List HashEntry))
  | 0, _, _ => none
  | fuel + 1, levels, curr =>
    if curr.length = 1 then some levels
    else do
      let parent ← get_merkle_parent curr
      MerkleTree.constructAux fuel (levels ++ [parent]) parent

/-- `MerkleTree.construct(hashes)` from src/bitcoin/merkle.py.  The input
hex strings are represented by the byte lists they decode to
(`bytes.fromhex(h)`); the source then reverses each, duplicates the last
when the count is odd, builds parent levels until one hash remains, reverses
the level list, and sets `root` to the reversed top level. -/
def MerkleTree.construct (hashes : List (List Nat)) : Option MerkleTree := do
  let hs := hashes.map List.reverse
  let hs ←
    if hs.length % 2 ≠ 0 then
      match hs.getLast? with
      | some l => some (hs ++ [l])
      | none => none
    else some hs
  let bottom := hs.map HashEntry.bytes
  let levels ← MerkleTree.constructAux (hs.length + 1) [bottom] bottom
  let tree := levels.reverse
  match tree.head? with
  | some top => some ⟨tree, top.reverse⟩
  | none => none

/-! ## Helper lemmas -/

theorem toBytesBE_length (n : Nat) : ∀ i, (toBytesBE i n).length = n := by
  induction n with
  | zero => intro i; rfl
  | succ n ih => intro i; simp [toBytesBE, ih]

theorem fromBytesBE_append_singleton (l : List Nat) (b : Nat) :
    fromBytesBE (l ++ [b]) = fromBytesBE l * 256 + b := by
  simp [fromBytesBE, List.foldl_append]

theorem fromBytesBE_toBytesBE (n : Nat) : ∀ i, i < 256 ^ n → fromBytesBE (toBytesBE i n) = i := by
  induction n with
  | zero =>
    intro i h
    have : i = 0 := by simpa using Nat.lt_one_iff.mp (by simpa using h)
    simp [this, toBytesBE, fromBytesBE]
  | succ n ih =>
    intro i h
    have hdiv : i / 256 < 256 ^ n := by
      rw [Nat.div_lt_iff_lt_mul (by norm_num)]
      calc i < 256 ^ (n + 1) := h
        _ = 256 ^ n * 256 := by rw [pow_succ]
    rw [toBytesBE, fromBytesBE_append_singleton, ih (i / 256) hdiv]
    omega

theorem fromBytesBE_cons_zero (l : List Nat) : fromBytesBE (0 :: l) = fromBytesBE l := by
  simp [fromBytesBE]

theorem fromBytesBE_dropWhile_zero (l : List Nat) :
    fromBytesBE (l.dropWhile (· == 0)) = fromBytesBE l := by
  induction l with
  | nil => rfl
  | cons a t ih =>
    rw [List.dropWhile_cons]
    by_cases h : a = 0
    · subst h
      simp only [beq_self_eq_true, if_true, ih, fromBytesBE_cons_zero]
    · have hb : (a == 0) = false := beq_false_of_ne h
      rw [hb]
      simp

/-! ## Claim theorems -/

/-- C1: the spec's RFC-6979 derivation initializes `V` to 32 bytes of `0x01`
and `K` to 32 bytes of `0x00` and reduces `z` when `z ≥ n`; the code instead
uses the 128-byte ASCII strings `b"0x00"*32` / `b"0x01"*32` (and reduces only
when `z > n`), so the produced nonce diverges from the spec's on every input:
at `(e, z) = (1, 1)` the code yields `0xe672…7c74` where the spec's steps
yield `0x9a40…95ac`. -/
theorem rfc6979_ascii_init_diverges_from_spec :
    rfc6979 1 1 = some 0xe67298e249b43837ca8fe43ffba016603f93f433e616f60907fc8d7114437c74 ∧
    rfc6979Spec 1 1 = some 0x9a409dab05968059da3efb323dc67c96f234571b965fd39810ca0643fbb795ac ∧
    rfc6979K0.length = 128 ∧ rfc6979V0.length = 128 ∧
    rfc6979 1 1 ≠ rfc6979Spec 1 1 := by
  have h1 : rfc6979 1 1 =
      some 0xe67298e249b43837ca8fe43ffba016603f93f433e616f60907fc8d7114437c74 := by decide
  have h2 : rfc6979Spec 1 1 =
      some 0x9a409dab05968059da3efb323dc67c96f234571b965fd39810ca0643fbb795ac := by decide
  exact ⟨h1, h2, by decide, by decide, by rw [h1, h2]; decide⟩

/-- C2: the claim (and the source's own docstring, Case 6) say that adding an
on-curve point with `y = 0` to itself yields the point at infinity.  The code
only returns infinity when the `y` coordinates differ, so `P + P` with
`P = (2, 0)` on the curve `y² = x³ + 2` over `F₅` falls into the tangent
branch, divides by `2y = 0` (Python `pow(0, p-2, p) = 0` makes the slope 0),
and returns the affine point `(1, 0)` instead of infinity. -/
theorem tangent_y_zero_returns_affine_point :
    onCurveEq ⟨5, 0, 2⟩ 2 0 ∧
    Point.add ⟨some ⟨5, 0, 2⟩, some 2, some 0⟩ ⟨some ⟨5, 0, 2⟩, some 2, some 0⟩ =
      some ⟨some ⟨5, 0, 2⟩, some 1, some 0⟩ ∧
    (Point.add ⟨some ⟨5, 0, 2⟩, some 2, some 0⟩ ⟨some ⟨5, 0, 2⟩, some 2, some 0⟩).map Point.x ≠
      some none := by
  exact ⟨by decide, by decide, by decide⟩

/-- C4 counterexample: `Signature.decode (Signature.encode sig)` does not
succeed: the decoder's length assertion expects one trailing sighash byte
that the encoder does not produce, so the round trip of `(r, s) = (1, 1)`
fails (`none`), contradicting the claim `decode(encode(sig)) = sig`. -/
theorem der_decode_of_encode_fails :
    Signature.encode ⟨1, 1⟩ = some [0x30, 6, 0x02, 1, 1, 0x02, 1, 1] ∧
    Signature.decode [0x30, 6, 0x02, 1, 1, 0x02, 1, 1] = none := by
  exact ⟨by decide, by decide⟩

/-- C5: the low-s rule `s ≤ n/2` is not enforced: Python evaluates `N/2` with
float division, whose IEEE-754 double value is exactly `2^255`, so the
replacement `s := n - s` only fires for `s > 2^255`.  With nonce `k = 1`,
private key `1` and `z = 2^255 - Gx`, the computed `s = 2^255` exceeds `n/2`
(`2·s > n`) yet is returned unchanged. -/
theorem from_private_low_s_not_enforced :
    Signature.from_private_k 1 (2 ^ 255 - secp256k1.Gx) 1 =
      some ⟨secp256k1.Gx, 2 ^ 255⟩ ∧
    2 * 2 ^ 255 > secp256k1.N ∧ nHalfFloat = 2 ^ 255 := by
  exact ⟨by decide, by decide, rfl⟩

/-- C7: a data push of exactly 75 bytes is not serialized as length byte 75
followed by the payload: the encoder's first branch tests `cmd_len < 75` and
the next begins at 76, so a 75-byte push raises `ValueError` (`none`), while
a 74-byte push is serialized as claimed. -/
theorem script_encode_push75_raises :
    Script.encode [Command.push (List.replicate 75 0)] = none ∧
    Script.encode [Command.push (List.replicate 74 0)] =
      some (75 :: 74 :: List.replicate 74 0) := by
  exact ⟨by decide, by decide⟩

/-- C8: for the two txids `"aa"*32` and `"bb"*32`, the tree's `root` is the
reversed top *level* — a one-element Python list holding the hex string of
`hash256(reverse(aa) ‖ reverse(bb))` — not the reversed 32-byte hash value
the claim states. -/
theorem merkle_root_is_hex_string_list :
    (MerkleTree.construct [List.replicate 32 0xaa, List.replicate 32 0xbb]).map MerkleTree.root =
      some [HashEntry.hex
        (hash256 ((List.replicate 32 0xaa).reverse ++ (List.replicate 32 0xbb).reverse))] := by
  decide

/-- C9 counterexample: `decode_int` on an exhausted stream returns the
integer `0` instead of failing: `BytesIO.read(n)` silently returns fewer
bytes and `int.from_bytes` accepts them, so no `TRUNCATED` failure exists. -/
theorem decode_int_empty_stream_returns_zero :
    ([] : List Nat).length < 4 ∧ decode_int [] 4 Endian.little = 0 := by
  exact ⟨by decide, by decide⟩

/-- C9 (amended): on a stream holding fewer than `n` bytes, `decode_int`
returns the integer decoded from exactly the bytes that remain, as if it had
been asked for the remaining length. -/
theorem decode_int_short_reads_available (s : List Nat) (n : Nat) (e : Endian)
    (h : s.length < n) :
    decode_int s n e = decode_int s s.length e := by
  unfold decode_int
  cases e <;> rw [List.take_of_length_le (le_of_lt h), List.take_length]

/-- Witness for `decode_int_short_reads_available` at the one-byte stream
`[5]` read with `n = 2`. -/
theorem decode_int_short_reads_available_witness :
    ([5] : List Nat).length < 2 ∧
    decode_int [5] 2 Endian.little = decode_int [5] ([5] : List Nat).length Endian.little :=
  ⟨by decide, decode_int_short_reads_available [5] 2 Endian.little (by decide)⟩

/-- C10 counterexample: SEC decoding of an uncompressed encoding of the
off-curve coordinates `(1, 1)` succeeds and returns that point; no curve
check (`BAD_POINT`) is performed anywhere. -/
theorem sec_decode_accepts_off_curve_point :
    PublicKey.decode (4 :: (toBytesBE 1 32 ++ toBytesBE 1 32)) =
      some ⟨some secp256k1.E, some 1, some 1⟩ ∧
    ¬ onCurveEq secp256k1.E 1 1 := by
  exact ⟨by decide, by decide⟩

/-- C10 (amended): constructing a `Point` never checks the curve equation:
uncompressed SEC decoding returns exactly the encoded coordinates, for every
pair of 256-bit values, on-curve or not. -/
theorem sec_decode_uncompressed_returns_raw (x y : Nat) (hx : x < 2 ^ 256) (hy : y < 2 ^ 256) :
    PublicKey.decode (4 :: (toBytesBE x 32 ++ toBytesBE y 32)) =
      some ⟨some secp256k1.E, some (x : Int), some (y : Int)⟩ := by
  have h256 : (256 : Nat) ^ 32 = 2 ^ 256 := by norm_num
  unfold PublicKey.decode
  simp only [List.head?, if_pos rfl]
  rw [List.drop_one, List.tail_cons, List.take_left' (toBytesBE_length 32 x),
    show (33 : Nat) = 32 + 1 from rfl, List.drop_succ_cons,
    List.drop_left' (toBytesBE_length 32 x),
    List.take_of_length_le (le_of_eq (toBytesBE_length 32 y)),
    fromBytesBE_toBytesBE 32 x (h256 ▸ hx), fromBytesBE_toBytesBE 32 y (h256 ▸ hy)]
  simp

/-- Witness for `sec_decode_uncompressed_returns_raw` at `(x, y) = (1, 2)`. -/
theorem sec_decode_uncompressed_returns_raw_witness :
    (1 : Nat) < 2 ^ 256 ∧ (2 : Nat) < 2 ^ 256 ∧
    PublicKey.decode (4 :: (toBytesBE 1 32 ++ toBytesBE 2 32)) =
      some ⟨some secp256k1.E, some 1, some 2⟩ :=
  ⟨by decide, by decide, sec_decode_uncompressed_returns_raw 1 2 (by decide) (by decide)⟩

/-- Shape of the decoder's accepted input: a DER body built from arbitrary
`r`/`s` byte strings, followed by the one-byte sighash suffix the decoder's
length assertions require. -/
theorem decode_encode_shape (rbin sbin : List Nat) :
    Signature.decode (([0x30, ([0x02, rbin.length] ++ rbin ++ [0x02, sbin.length] ++ sbin).length] ++
        ([0x02, rbin.length] ++ rbin ++ [0x02, sbin.length] ++ sbin)) ++ [0x01]) =
      some ⟨fromBytesBE rbin, fromBytesBE sbin⟩ := by
  have hL : ([0x02, rbin.length] ++ rbin ++ [0x02, sbin.length] ++ sbin).length =
      4 + rbin.length + sbin.length := by
    simp [List.length_append]
    omega
  rw [hL]
  have hcons : ([0x30, 4 + rbin.length + sbin.length] ++
      ([0x02, rbin.length] ++ rbin ++ [0x02, sbin.length] ++ sbin)) ++ [0x01] =
      0x30 :: (4 + rbin.length + sbin.length) :: 0x02 :: rbin.length ::
        (rbin ++ 0x02 :: sbin.length :: (sbin ++ [0x01])) := by
    simp [List.append_assoc]
  rw [hcons]
  simp only [Signature.decode, if_true]
  rw [if_pos (show ((4 + rbin.length + sbin.length : Nat) : Int) =
      ((48 :: (4 + rbin.length + sbin.length) :: 2 :: rbin.length ::
        (rbin ++ 2 :: sbin.length :: (sbin ++ [1]))).length : Int) - 3 from by
    simp [List.length_append, List.length_cons]; omega)]
  simp only [if_true, List.drop_left, List.take_left]
  rw [if_pos (show (48 :: (4 + rbin.length + sbin.length) :: 2 :: rbin.length ::
      (rbin ++ 2 :: sbin.length :: (sbin ++ [1]))).length = 7 + rbin.length + sbin.length from by
    simp [List.length_append, List.length_cons]; omega)]

/-- C4 (amended): the DER round trip holds once the decoder's expected
one-byte sighash suffix is appended: for every signature with
`1 ≤ r < n` and `1 ≤ s < n`, encoding succeeds and
`decode(encode(sig) ‖ 0x01)` returns the same `r` and `s`. -/
theorem der_roundtrip_with_sighash (r s : Nat) (hr1 : 1 ≤ r) (hrN : r < secp256k1.N)
    (hs1 : 1 ≤ s) (hsN : s < secp256k1.N) :
    ∃ enc, Signature.encode ⟨r, s⟩ = some enc ∧
      Signature.decode (enc ++ [0x01]) = some ⟨r, s⟩ := by
  have hNlt : secp256k1.N < 2 ^ 256 := by decide
  have hr2 : r < 2 ^ 256 := hrN.trans hNlt
  have hs2 : s < 2 ^ 256 := hsN.trans hNlt
  have h256 : (256 : Nat) ^ 32 = 2 ^ 256 := by norm_num
  have hrv : fromBytesBE ((toBytesBE r 32).dropWhile (· == 0)) = r := by
    rw [fromBytesBE_dropWhile_zero, fromBytesBE_toBytesBE 32 r (h256 ▸ hr2)]
  have hsv : fromBytesBE ((toBytesBE s 32).dropWhile (· == 0)) = s := by
    rw [fromBytesBE_dropWhile_zero, fromBytesBE_toBytesBE 32 s (h256 ▸ hs2)]
  have hrne : (toBytesBE r 32).dropWhile (· == 0) ≠ [] := by
    intro h; rw [h] at hrv; simp [fromBytesBE] at hrv; omega
  have hsne : (toBytesBE s 32).dropWhile (· == 0) ≠ [] := by
    intro h; rw [h] at hsv; simp [fromBytesBE] at hsv; omega
  obtain ⟨rh, rt, hrc⟩ := List.exists_cons_of_ne_nil hrne
  obtain ⟨sh, st, hsc⟩ := List.exists_cons_of_ne_nil hsne
  rw [hrc] at hrv
  rw [hsc] at hsv
  unfold Signature.encode
  rw [if_pos ⟨hr2, hs2⟩, hrc, hsc]
  simp only [List.head?]
  by_cases hrh : 0x80 ≤ rh <;> by_cases hsh : 0x80 ≤ sh <;>
    simp only [hrh, hsh, if_true, if_false, ite_true, ite_false, if_pos, if_neg] <;>
    refine ⟨_, rfl, ?_⟩ <;>
    rw [decode_encode_shape] <;>
    simp [fromBytesBE_cons_zero, hrv, hsv]

/-- Witness for `der_roundtrip_with_sighash` at `(r, s) = (1, 1)`. -/
theorem der_roundtrip_with_sighash_witness :
    (1 ≤ 1) ∧ ((1 : Nat) < secp256k1.N) ∧
    ∃ enc, Signature.encode ⟨1, 1⟩ = some enc ∧
      Signature.decode (enc ++ [0x01]) = some ⟨1, 1⟩ :=
  ⟨le_refl 1, by decide,
    der_roundtrip_with_sighash 1 1 (le_refl 1) (by decide) (le_refl 1) (by decide)⟩

/-- C3 (amended): `validate_signature` accepts exactly when the `assert`s
`1 ≤ r ≤ n` and `1 ≤ s ≤ n` pass (note `≤ n`, not `< n`) and the computed
`R = u·G + v·P` exists with `R.x` equal to `r` as an exact integer — no
reduction of `R.x` modulo `n` is performed, and the at-infinity `R` is
rejected because its `x` is `None`. -/
theorem validate_signature_exact_iff (p : Point) (m : List Nat) (sig : Signature) :
    validate_signature p m sig = some true ↔
      (1 ≤ sig.r ∧ sig.r ≤ secp256k1.N) ∧ (1 ≤ sig.s ∧ sig.s ≤ secp256k1.N) ∧
      ∃ R, specMulAdd p
          (fromBytesBE (hash256 m) * powMod sig.s (secp256k1.N - 2) secp256k1.N % secp256k1.N)
          (sig.r * powMod sig.s (secp256k1.N - 2) secp256k1.N % secp256k1.N) = some R ∧
        R.x = some (sig.r : Int) := by
  unfold validate_signature specMulAdd modulardiv
  by_cases h1 : 1 ≤ sig.r ∧ sig.r ≤ secp256k1.N
  · rw [if_pos h1]
    by_cases h2 : 1 ≤ sig.s ∧ sig.s ≤ secp256k1.N
    · rw [if_pos h2]
      cases hug : Point.rmul
          (fromBytesBE (hash256 m) * powMod sig.s (secp256k1.N - 2) secp256k1.N % secp256k1.N)
          secp256k1.G with
      | none => simp [hug, h1, h2]
      | some uG =>
        cases hvp : Point.rmul
            (sig.r * powMod sig.s (secp256k1.N - 2) secp256k1.N % secp256k1.N) p with
        | none => simp [hug, hvp, h1, h2]
        | some vP =>
          cases hadd : Point.add uG vP with
          | none => simp [hug, hvp, hadd, h1, h2]
          | some R => simp [hug, hvp, hadd, h1, h2]
    · rw [if_neg h2]; simp [h2]
  · rw [if_neg h1]; simp [h1]

/-- C3 counterexample: a concrete on-curve public key `P`, message `"abc"`
and signature `(r, s) = (2, 2)` for which the claim's acceptance predicate
holds — `R = u·G + v·P` has `R.x = n + 2`, so `R.x mod n = 2 = r` with
`1 ≤ r, s < n` — yet the code rejects, because it compares `R.x == r`
without reducing modulo `n`. -/
theorem validate_rejects_spec_accepted_signature :
    validate_signature ⟨some secp256k1.E,
        some 0x4a93e95ca8108deb68ffe5134e44b2c3f215682bf5470d635d5dc34f9ea7eb90,
        some 0x3501dd8f2875e509b4940c4eeca759029688791158610e280e0316558c61b4c7⟩
      [0x61, 0x62, 0x63] ⟨2, 2⟩ = some false ∧
    specVerifyAccepts ⟨some secp256k1.E,
        some 0x4a93e95ca8108deb68ffe5134e44b2c3f215682bf5470d635d5dc34f9ea7eb90,
        some 0x3501dd8f2875e509b4940c4eeca759029688791158610e280e0316558c61b4c7⟩
      [0x61, 0x62, 0x63] ⟨2, 2⟩ = true := by
  exact ⟨by decide, by decide⟩

/-- Kernel evaluation of the double-and-add loop at `n = N`: the final
addition hits the additive-inverse branch, which constructs
`Point(None, None, None)` — the module constant `INF`. -/
theorem rmul_N_G_eval : Point.rmul secp256k1.N secp256k1.G = some INF := by
  decide

/-- Kernel evaluation at `n = 0`: the loop never runs and the accumulator
`Point(self.curve, None, None)` is returned — at infinity, but carrying the
curve. -/
theorem rmul_zero_G_eval :
    Point.rmul 0 secp256k1.G = some ⟨some secp256k1.E, none, none⟩ := by
  decide

/-- Kernel evaluation at `n = N + 2^257`: after the bit-255 addition the
accumulator is the curve-less `Point(None, None, None)`, and the bit-257
addition then evaluates `self.curve.p` on it — an `AttributeError`. -/
theorem rmul_N_plus_2pow257_G_eval :
    Point.rmul (secp256k1.N + 2 ^ 257) secp256k1.G = none := by
  decide

/-- Kernel evaluation at `n = 2^257`: the multiplication completes and
returns an affine point. -/
theorem rmul_2pow257_G_isSome :
    (Point.rmul (2 ^ 257) secp256k1.G).isSome = true := by
  decide

/-- C6 (amended): `n · G` equals the module constant `INF =
Point(None, None, None)`, the point at infinity; but the identity
`(n + k) · G = k · G` fails.  At `k = 0`, `0 · G` is `Point(E, None, None)` —
also at infinity (`x = None`) yet a different value, since dataclass equality
compares the `curve` field.  At `k = 2^257`, computing `(n + k) · G` raises
`AttributeError` (the accumulator becomes the curve-less infinity when the
partial sum reaches `n · G` at bit 255, and the bit-257 addition dereferences
its `curve`), while `k · G` alone computes an affine point. -/
theorem nG_is_INF_but_identity_fails :
    Point.rmul secp256k1.N secp256k1.G = some INF ∧
    (Point.rmul 0 secp256k1.G).map Point.x = some none ∧
    Point.rmul (secp256k1.N + 0) secp256k1.G ≠ Point.rmul 0 secp256k1.G ∧
    Point.rmul (secp256k1.N + 2 ^ 257) secp256k1.G = none ∧
    (Point.rmul (2 ^ 257) secp256k1.G).isSome = true ∧
    Point.rmul (secp256k1.N + 2 ^ 257) secp256k1.G ≠ Point.rmul (2 ^ 257) secp256k1.G := by
  refine ⟨rmul_N_G_eval, by rw [rmul_zero_G_eval]; rfl, ?_,
    rmul_N_plus_2pow257_G_eval, rmul_2pow257_G_isSome, ?_⟩
  · rw [Nat.add_zero, rmul_N_G_eval, rmul_zero_G_eval]
    decide
  · rw [rmul_N_plus_2pow257_G_eval]
    intro h
    have hs := rmul_2pow257_G_isSome
    rw [← h] at hs
    simp at hs

/-- C6 counterexample: at `k = 0` the claimed identity `(n + k) · G = k · G`
is false — the two sides are distinct `Point` values. -/
theorem rmul_N_plus_zero_ne_rmul_zero :
    Point.rmul (secp256k1.N + 0) secp256k1.G ≠ Point.rmul 0 secp256k1.G := by
  rw [Nat.add_zero, rmul_N_G_eval, rmul_zero_G_eval]
  decide
